import Mathlib

/-!
Verification of the univariate distribution library declared in
`src/include/openmc/distribution.h`.

The header declares the classes `Discrete`, `Uniform`, `Maxwell`, `Watt`,
`Tabular` and `Equiprobable`.  Only the header is part of the sources at hand:
the bodies of `sample()`, `init()`, `normalize()` and the array constructors of
`Discrete` and `Tabular` live in a translation unit that is not available, so
those operations are modelled from the specification, as noted on each
definition.  The raw-array constructor of `Equiprobable` and the accessors of
`Tabular` are defined inline in the header and are embedded from that code.

Doubles are modelled as exact rationals for the table-driven distributions and
as real numbers for the analytic (Maxwell/Watt) samplers; the ambient random
source is an explicit stream of variates.
-/

namespace OpenMC

/-- Modelled from the spec: the `Interpolation` enumeration lives in
`openmc/constants.h`, which is not among the sources; the spec describes two
rules, piecewise-constant (histogram) and piecewise-linear (linear-linear).
Named `Interp` here. -/
inductive Interp where
  | histogram : Interp
  | lin_lin : Interp
deriving DecidableEq

/-! ### Discrete distribution -/

/-- State of a `Discrete` object: outcomes `x_` and probabilities `p_`. -/
structure DiscreteD where
  x : List ℚ
  p : List ℚ
deriving DecidableEq

/-- Modelled from the spec: the body of the `Discrete` constructor and of
`Discrete::normalize` is not among the sources.  Per the spec, construction
normalizes `p` by dividing every entry by `sum(p)` once, and fails when
`sum(p) <= 0` or when `x` and `p` have different lengths. -/
def discreteMake (x p : List ℚ) : Option DiscreteD :=
  if x.length = p.length ∧ 0 < p.sum then
    some ⟨x, p.map (fun q => q / p.sum)⟩
  else
    none

/-- Modelled from the spec: the body of `Discrete::sample` is not among the
sources.  Per the spec, the sampler walks the outcomes accumulating
probability and returns the first outcome whose cumulative sum exceeds the
uniform variate `u`; `none` when the walk falls off the end. -/
def discreteSampleAux : List ℚ → List ℚ → ℚ → ℚ → Option ℚ
  | xi :: xs, pi :: ps, c, u =>
      if u < c + pi then some xi else discreteSampleAux xs ps (c + pi) u
  | _, _, _, _ => none

/-- One draw from a `Discrete` distribution at uniform variate `u`. -/
def discreteSample (x p : List ℚ) (u : ℚ) : Option ℚ :=
  discreteSampleAux x p 0 u

/-- Summing a list divided pointwise by a constant. -/
theorem list_sum_map_div (l : List ℚ) (a : ℚ) :
    (l.map (fun q => q / a)).sum = l.sum / a := by
  induction l with
  | nil => simp
  | cons q l ih => simp [ih, add_div]

/-- The accumulator-walk sampler returns the least index whose shifted
cumulative sum exceeds `u`, provided the total mass (shifted by the
accumulator) exceeds `u`. -/
theorem discreteSampleAux_least (u : ℚ) :
    ∀ (x p : List ℚ) (c : ℚ), x.length = p.length → c ≤ u → u < c + p.sum →
      ∃ i, ∃ hi : i < x.length,
        discreteSampleAux x p c u = some (x.get ⟨i, hi⟩) ∧
        u < c + (p.take (i + 1)).sum ∧
        ∀ j < i, c + (p.take (j + 1)).sum ≤ u := by
  intro x
  induction x with
  | nil =>
    intro p c hlen hc hu
    cases p with
    | nil => simp at hu; exact absurd hu (not_lt.mpr hc)
    | cons q ps => simp at hlen
  | cons xi xs ih =>
    intro p c hlen hc hu
    cases p with
    | nil => simp at hlen
    | cons pi ps =>
      by_cases h : u < c + pi
      · refine ⟨0, by simp, ?_, ?_, ?_⟩
        · simp [discreteSampleAux, h]
        · simpa using h
        · intro j hj; omega
      · have hlen' : xs.length = ps.length := by simpa using hlen
        have hc' : c + pi ≤ u := not_lt.mp h
        have hu' : u < (c + pi) + ps.sum := by
          have : (pi :: ps).sum = pi + ps.sum := by simp
          rw [this] at hu; linarith
        obtain ⟨i, hi, heq, hcum, hleast⟩ := ih ps (c + pi) hlen' hc' hu'
        refine ⟨i + 1, by simpa using Nat.succ_lt_succ hi, ?_, ?_, ?_⟩
        · simpa [discreteSampleAux, h] using heq
        · have : ((pi :: ps).take (i + 2)).sum = pi + (ps.take (i + 1)).sum := by
            simp
          rw [this]; linarith
        · intro j hj
          cases j with
          | zero => simp; linarith [not_lt.mp h]
          | succ j' =>
            have hj' : j' < i := by omega
            have := hleast j' hj'
            have hsum : ((pi :: ps).take (j' + 2)).sum
                = pi + (ps.take (j' + 1)).sum := by simp
            rw [hsum]; linarith

/-- Helper: fields of a successfully constructed `Discrete`. -/
theorem discreteMake_eq_some {x p : List ℚ} {d : DiscreteD}
    (h : discreteMake x p = some d) :
    x.length = p.length ∧ 0 < p.sum ∧ d.x = x ∧
      d.p = p.map (fun q => q / p.sum) := by
  by_cases hc : x.length = p.length ∧ 0 < p.sum
  · refine ⟨hc.1, hc.2, ?_, ?_⟩ <;>
      · simp only [discreteMake, if_pos hc] at h
        cases h; rfl
  · simp [discreteMake, if_neg hc] at h

/-- Helper: the probabilities of a constructed `Discrete` sum to one. -/
theorem discreteMake_sum_one {x p : List ℚ} {d : DiscreteD}
    (h : discreteMake x p = some d) : d.p.sum = 1 := by
  obtain ⟨-, hpos, -, hp⟩ := discreteMake_eq_some h
  rw [hp, list_sum_map_div]
  exact div_self (ne_of_gt hpos)

/-- Helper: `x` and `p` of a constructed `Discrete` have equal lengths. -/
theorem discreteMake_length {x p : List ℚ} {d : DiscreteD}
    (h : discreteMake x p = some d) : d.x.length = d.p.length := by
  obtain ⟨hlen, -, hx, hp⟩ := discreteMake_eq_some h
  rw [hx, hp]; simpa using hlen

/-- Claim C1: for every constructed `Discrete` distribution and every uniform
variate `u` in `[0,1)`, `sample` returns `x[i]` where `i` is the smallest
index at which the cumulative sum of `p[0..i]` exceeds `u`; lower indices,
whose cumulative sums do not exceed `u`, lose, so the result is deterministic
given `u`. -/
theorem discrete_sample_least_index (x p : List ℚ) (d : DiscreteD) (u : ℚ)
    (hd : discreteMake x p = some d) (hu0 : 0 ≤ u) (hu1 : u < 1) :
    ∃ i, ∃ hi : i < d.x.length,
      discreteSample d.x d.p u = some (d.x.get ⟨i, hi⟩) ∧
      u < (d.p.take (i + 1)).sum ∧
      ∀ j < i, (d.p.take (j + 1)).sum ≤ u := by
  have hsum : d.p.sum = 1 := discreteMake_sum_one hd
  have hlen : d.x.length = d.p.length := discreteMake_length hd
  have hu' : u < 0 + d.p.sum := by rw [hsum]; linarith
  obtain ⟨i, hi, heq, hcum, hleast⟩ :=
    discreteSampleAux_least u d.x d.p 0 hlen hu0 hu'
  exact ⟨i, hi, heq, by linarith, fun j hj => by linarith [hleast j hj]⟩

/-- Witness for C1 at `x = [10,20,30]`, `p = [1,1,2]`, `u = 1/4`: the
normalized cumulative sums are `1/4, 1/2, 1`, so the least index whose
cumulative sum exceeds `1/4` is `1` and the sample is `20`. -/
theorem discrete_sample_least_index_witness :
    ∃ i, ∃ hi : i < (DiscreteD.mk [10, 20, 30] [1/4, 1/4, 1/2]).x.length,
      discreteSample (DiscreteD.mk [10, 20, 30] [1/4, 1/4, 1/2]).x
          (DiscreteD.mk [10, 20, 30] [1/4, 1/4, 1/2]).p (1/4)
        = some ((DiscreteD.mk [10, 20, 30] [1/4, 1/4, 1/2]).x.get ⟨i, hi⟩) ∧
      (1/4 : ℚ) < (((DiscreteD.mk [10, 20, 30] [1/4, 1/4, 1/2]).p.take (i + 1)).sum) ∧
      ∀ j < i, (((DiscreteD.mk [10, 20, 30] [1/4, 1/4, 1/2]).p.take (j + 1)).sum) ≤ 1/4 :=
  discrete_sample_least_index [10, 20, 30] [1, 1, 2]
    (DiscreteD.mk [10, 20, 30] [1/4, 1/4, 1/2]) (1/4)
    (by norm_num [discreteMake]) (by norm_num) (by norm_num)

/-- Claim C6: `Discrete` construction divides every probability entry by
`sum(p)` exactly once, so the stored probabilities sum to one; construction
yields no object when `sum(p) <= 0` or when the `x` and `p` arrays have
different lengths. -/
theorem discrete_make_spec (x p : List ℚ) :
    ((x.length ≠ p.length ∨ p.sum ≤ 0) → discreteMake x p = none) ∧
    ∀ d, discreteMake x p = some d →
      d.x = x ∧ d.p = p.map (fun q => q / p.sum) ∧ d.p.sum = 1 := by
  constructor
  · intro hbad
    have : ¬(x.length = p.length ∧ 0 < p.sum) := by
      rcases hbad with h | h
      · exact fun hc => h hc.1
      · exact fun hc => absurd hc.2 (not_lt.mpr h)
    simp [discreteMake, if_neg this]
  · intro d hd
    obtain ⟨-, -, hx, hp⟩ := discreteMake_eq_some hd
    exact ⟨hx, hp, discreteMake_sum_one hd⟩

/-- Witness for C6: mismatched lengths yield no object, and a constructed
`Discrete` from `p = [1,3]` carries normalized probabilities summing to one. -/
theorem discrete_make_spec_witness :
    discreteMake [(1 : ℚ)] [(2 : ℚ), 3] = none ∧
      (DiscreteD.mk [(5 : ℚ), 6] [1/4, 3/4]).p.sum = 1 :=
  ⟨(discrete_make_spec [(1 : ℚ)] [(2 : ℚ), 3]).1 (Or.inl (by norm_num)),
   ((discrete_make_spec [(5 : ℚ), 6] [(1 : ℚ), 3]).2
      (DiscreteD.mk [(5 : ℚ), 6] [1/4, 3/4]) (by norm_num [discreteMake])).2.2⟩

/-! ### Uniform distribution -/

/-- Modelled from the spec: the body of `Uniform::sample` is not among the
sources.  Per the spec, sampling returns `a + u*(b-a)` for a uniform variate
`u` in `[0,1)`. -/
def uniformSample (a b u : ℚ) : ℚ :=
  a + u * (b - a)

/-- Claim C7: `Uniform::sample` returns `a + u*(b-a)` for the drawn uniform
variate `u`; in the degenerate case `a = b` every sample equals that
constant, whatever `u` was drawn. -/
theorem uniform_sample_spec (a b u : ℚ) :
    uniformSample a b u = a + u * (b - a) ∧ uniformSample a a u = a := by
  refine ⟨rfl, ?_⟩
  simp [uniformSample]

/-! ### Equiprobable distribution -/

/-- State of an `Equiprobable` object: the bin boundaries `x_`. -/
structure EquiprobableD where
  x : List ℚ
deriving DecidableEq

/-- The raw-array constructor of `Equiprobable`, embedded from the header,
where it is defined inline: `Equiprobable(const double* x, int n) :
x_{x, x+n} { }`.  It copies the `n` boundary values and performs no
validation whatsoever; it is wrapped in `Option` (the embedding of a
constructor that can fail) and never returns `none`. -/
def equiprobableMake (x : List ℚ) : Option EquiprobableD :=
  some ⟨x⟩

/-- Counterexample to claim C8 as stated: constructing an `Equiprobable` from
the single-element array `[5]` (so `n = 1 < 2`) is not a construction error;
it produces an object holding that array. -/
theorem equiprobable_small_input_constructs :
    equiprobableMake [(5 : ℚ)] = some ⟨[(5 : ℚ)]⟩ ∧ [(5 : ℚ)].length < 2 :=
  ⟨rfl, by decide⟩

/-- Claim C8, amended: the raw-array `Equiprobable` constructor performs no
validation at all: for every input array, including arrays with fewer than
two boundary values, it produces an object whose boundary list is a copy of
the input. -/
theorem equiprobable_make_total (x : List ℚ) :
    ∃ e : EquiprobableD, equiprobableMake x = some e ∧ e.x = x :=
  ⟨⟨x⟩, rfl, rfl⟩

/-! ### Tabular distribution -/

/-- State of a `Tabular` object: grid `x_`, densities `p_`, cumulative
distribution `c_` and the interpolation rule. -/
structure TabularD where
  x : List ℚ
  p : List ℚ
  c : List ℚ
  interp : Interp
deriving DecidableEq

/-- Area of the density over one grid interval under the interpolation rule:
constant density for histogram, trapezoid for linear-linear. -/
def interpArea : Interp → ℚ → ℚ → ℚ → ℚ → ℚ
  | Interp.histogram, x0, x1, p0, _ => p0 * (x1 - x0)
  | Interp.lin_lin, x0, x1, p0, p1 => (p0 + p1) / 2 * (x1 - x0)

/-- The list of interval integrals of the tabulated density. -/
def cumIncrements (interp : Interp) : List ℚ → List ℚ → List ℚ
  | x0 :: x1 :: xs, p0 :: p1 :: ps =>
      interpArea interp x0 x1 p0 p1 :: cumIncrements interp (x1 :: xs) (p1 :: ps)
  | _, _ => []

/-- Running sums of a list of increments, starting just above `s`. -/
def cumFrom (s : ℚ) : List ℚ → List ℚ
  | [] => []
  | d :: ds => (s + d) :: cumFrom (s + d) ds

/-- The cumulative table of a list of increments: `0` followed by the
running sums. -/
def cumList (ds : List ℚ) : List ℚ :=
  0 :: cumFrom 0 ds

/-- Modelled from the spec: the body of `Tabular::init` is not among the
sources.  Per the spec, construction fails unless `x` is strictly increasing,
`p` is non-negative, the arrays have equal length (at least two points) and
the total integrated mass is positive. -/
def tabularValid (x p : List ℚ) (interp : Interp) : Prop :=
  x.length = p.length ∧ 2 ≤ x.length ∧ List.Chain' (· < ·) x ∧
    (∀ q ∈ p, 0 ≤ q) ∧ 0 < (cumIncrements interp x p).sum

instance (x p : List ℚ) (interp : Interp) : Decidable (tabularValid x p interp) := by
  unfold tabularValid; infer_instance

/-- The cumulative table derived from `x` and `p`: interval integrals under
the interpolation rule, normalized by the total mass. -/
def tabularCumNorm (interp : Interp) (x p : List ℚ) : List ℚ :=
  cumList ((cumIncrements interp x p).map
    (fun d => d / (cumIncrements interp x p).sum))

/-- Modelled from the spec: the body of `Tabular::init` (reached from the
array constructor with `c = nullptr`) is not among the sources.  Per the
spec, when `c` is not supplied it is computed by integrating the density
over each interval under the interpolation rule, and the whole table (both
`p` and `c`) is normalized by the total so that `c[n-1] = 1`. -/
def tabularInit (x p : List ℚ) (interp : Interp) : Option TabularD :=
  if tabularValid x p interp then
    some ⟨x, p.map (fun q => q / (cumIncrements interp x p).sum),
          tabularCumNorm interp x p, interp⟩
  else none

/-- Embedded from the header: `std::vector<double>& x() { return x_; }` is a
non-const accessor, so a caller can assign a new grid through it; the
assignment replaces `x_` and touches neither `p_` nor `c_` (no public
operation of the class recomputes `c_`; `sample` is const). -/
def setX (t : TabularD) (x : List ℚ) : TabularD :=
  ⟨x, t.p, t.c, t.interp⟩

/-- The derived-data invariant of the spec: the stored cumulative table is
the one derived from the stored `x` and `p` under the stored rule. -/
def tabularConsistentC (t : TabularD) : Prop :=
  t.c = tabularCumNorm t.interp t.x t.p

/-- Helper: fields of a successfully constructed `Tabular`. -/
theorem tabularInit_eq_some {x p : List ℚ} {interp : Interp} {t : TabularD}
    (h : tabularInit x p interp = some t) :
    tabularValid x p interp ∧ t.x = x ∧
      t.p = p.map (fun q => q / (cumIncrements interp x p).sum) ∧
      t.c = tabularCumNorm interp x p ∧ t.interp = interp := by
  by_cases hv : tabularValid x p interp
  · refine ⟨hv, ?_, ?_, ?_, ?_⟩ <;>
      · simp only [tabularInit, if_pos hv] at h
        cases h; rfl
  · simp [tabularInit, if_neg hv] at h

/-- Helper: length of the increment list. -/
theorem cumIncrements_length (interp : Interp) :
    ∀ (x p : List ℚ), (cumIncrements interp x p).length = min x.length p.length - 1
  | [], [] => by simp [cumIncrements]
  | [], q :: ps => by simp [cumIncrements]
  | x0 :: xs, [] => by simp [cumIncrements]
  | [x0], q :: ps => by simp [cumIncrements]
  | x0 :: x1 :: xs, [q] => by simp [cumIncrements]
  | x0 :: x1 :: xs, p0 :: p1 :: ps => by
      rw [cumIncrements, List.length_cons,
        cumIncrements_length interp (x1 :: xs) (p1 :: ps)]
      simp [Nat.succ_min_succ]

/-- Helper: interval integrals are non-negative for an increasing grid and
non-negative densities. -/
theorem cumIncrements_nonneg (interp : Interp) (x : List ℚ) :
    ∀ (p : List ℚ), List.Chain' (· < ·) x → (∀ q ∈ p, 0 ≤ q) →
      ∀ d ∈ cumIncrements interp x p, 0 ≤ d := by
  induction x with
  | nil => intro p _ _ d hd; simp [cumIncrements] at hd
  | cons x0 xt ih =>
    intro p hx hp d hd
    cases xt with
    | nil => simp [cumIncrements] at hd
    | cons x1 xs =>
      cases p with
      | nil => simp [cumIncrements] at hd
      | cons p0 pt =>
        cases pt with
        | nil => simp [cumIncrements] at hd
        | cons p1 ps =>
          rw [cumIncrements] at hd
          rcases List.mem_cons.mp hd with h | h
          · subst h
            have hx01 : x0 < x1 := (List.chain'_cons.mp hx).1
            have hp0 : 0 ≤ p0 := hp p0 (by simp)
            have hp1 : 0 ≤ p1 := hp p1 (by simp)
            cases interp with
            | histogram =>
              simp only [interpArea]
              exact mul_nonneg hp0 (by linarith)
            | lin_lin =>
              simp only [interpArea]
              exact mul_nonneg (by linarith) (by linarith)
          · exact ih (p1 :: ps) (List.chain'_cons.mp hx).2
              (fun q hq => hp q (List.mem_cons_of_mem _ hq)) d h

/-- Helper: length of the running-sum list. -/
theorem cumFrom_length (ds : List ℚ) : ∀ s, (cumFrom s ds).length = ds.length := by
  induction ds with
  | nil => intro s; simp [cumFrom]
  | cons d ds ih => intro s; simp [cumFrom, ih]

/-- Helper: the last running sum is the start plus the total. -/
theorem cumFrom_getD_last (ds : List ℚ) :
    ∀ s, ds ≠ [] → (cumFrom s ds).getD (ds.length - 1) 0 = s + ds.sum := by
  induction ds with
  | nil => intro s h; exact absurd rfl h
  | cons d ds ih =>
    intro s _
    cases ds with
    | nil => simp [cumFrom]
    | cons d2 ds' =>
      have : (d :: d2 :: ds').length - 1 = (d2 :: ds').length - 1 + 1 := by
        simp
      rw [cumFrom, this, List.getD_cons_succ, ih (s + d) (by simp)]
      simp; ring

/-- Helper: running sums over a non-negative list form a non-decreasing
chain when prefixed with the start. -/
theorem cumFrom_chain (ds : List ℚ) :
    ∀ s, (∀ d ∈ ds, 0 ≤ d) → List.Chain' (· ≤ ·) (s :: cumFrom s ds) := by
  induction ds with
  | nil => intro s _; simp [cumFrom]
  | cons d ds ih =>
    intro s hd
    rw [cumFrom, List.chain'_cons]
    exact ⟨by linarith [hd d (by simp)],
      ih (s + d) (fun e he => hd e (List.mem_cons_of_mem _ he))⟩

/-- Helper: head, last entry and monotonicity of the cumulative table. -/
theorem cumList_spec (ds : List ℚ) (hne : ds ≠ []) (hnn : ∀ d ∈ ds, 0 ≤ d) :
    (cumList ds).getD 0 0 = 0 ∧
      (cumList ds).getD ((cumList ds).length - 1) 0 = ds.sum ∧
      List.Chain' (· ≤ ·) (cumList ds) := by
  refine ⟨rfl, ?_, cumFrom_chain ds 0 hnn⟩
  have hlen : (cumList ds).length = ds.length + 1 := by
    simp [cumList, cumFrom_length]
  rw [hlen]
  have h1 : ds.length + 1 - 1 = (ds.length - 1) + 1 := by
    cases ds with
    | nil => exact absurd rfl hne
    | cons d ds' => simp
  rw [h1, cumList, List.getD_cons_succ, cumFrom_getD_last ds 0 hne, zero_add]

/-- Helper: the normalized cumulative table of a valid `Tabular` starts at
`0`, ends at `1` and is non-decreasing. -/
theorem tabularCumNorm_spec (x p : List ℚ) (interp : Interp)
    (hv : tabularValid x p interp) :
    (tabularCumNorm interp x p).getD 0 0 = 0 ∧
      (tabularCumNorm interp x p).getD ((tabularCumNorm interp x p).length - 1) 0 = 1 ∧
      List.Chain' (· ≤ ·) (tabularCumNorm interp x p) := by
  obtain ⟨hlen, hn, hx, hp, hpos⟩ := hv
  set ds := cumIncrements interp x p with hds
  have hdsne : ds ≠ [] := by
    intro h
    rw [h] at hpos
    simp at hpos
  have hnn : ∀ d ∈ ds.map (fun d => d / ds.sum), 0 ≤ d := by
    intro d hd
    obtain ⟨e, he, rfl⟩ := List.mem_map.mp hd
    exact div_nonneg (cumIncrements_nonneg interp x p hx hp e he) (le_of_lt hpos)
  have hne : ds.map (fun d => d / ds.sum) ≠ [] := by
    simpa using hdsne
  have := cumList_spec (ds.map (fun d => d / ds.sum)) hne hnn
  rw [list_sum_map_div, div_self (ne_of_gt hpos)] at this
  exact this

/-- Claim C3: when the cumulative array is not supplied, `Tabular::init`
computes it by integrating the density over each interval under the chosen
interpolation rule and normalizes it, so every successfully constructed
`Tabular` has `c` starting at `0`, ending at `1`, and monotonically
non-decreasing. -/
theorem tabular_init_cdf_invariant (x p : List ℚ) (interp : Interp)
    (t : TabularD) (h : tabularInit x p interp = some t) :
    t.c = tabularCumNorm interp x p ∧ t.c.getD 0 0 = 0 ∧
      t.c.getD (t.c.length - 1) 0 = 1 ∧ List.Chain' (· ≤ ·) t.c := by
  obtain ⟨hv, -, -, hc, -⟩ := tabularInit_eq_some h
  rw [hc]
  exact ⟨rfl, tabularCumNorm_spec x p interp hv⟩

/-- Witness for C3 at `x = [0,1,2]`, `p = [1,1,1]`, histogram rule: the
derived cumulative table is `[0, 1/2, 1]`. -/
theorem tabular_init_cdf_invariant_witness :
    (TabularD.mk [0, 1, 2] [1/2, 1/2, 1/2] [0, 1/2, 1] Interp.histogram).c
        = tabularCumNorm Interp.histogram [0, 1, 2] [1, 1, 1] ∧
      (TabularD.mk [0, 1, 2] [1/2, 1/2, 1/2] [0, 1/2, 1] Interp.histogram).c.getD 0 0 = 0 ∧
      (TabularD.mk [0, 1, 2] [1/2, 1/2, 1/2] [0, 1/2, 1] Interp.histogram).c.getD
        ((TabularD.mk [0, 1, 2] [1/2, 1/2, 1/2] [0, 1/2, 1] Interp.histogram).c.length - 1) 0 = 1 ∧
      List.Chain' (· ≤ ·)
        (TabularD.mk [0, 1, 2] [1/2, 1/2, 1/2] [0, 1/2, 1] Interp.histogram).c :=
  tabular_init_cdf_invariant [0, 1, 2] [1, 1, 1] Interp.histogram
    (TabularD.mk [0, 1, 2] [1/2, 1/2, 1/2] [0, 1/2, 1] Interp.histogram)
    (by norm_num [tabularInit, tabularValid, tabularCumNorm, cumIncrements,
      interpArea, cumList, cumFrom, List.chain'_cons])

/-- Modelled from the spec: the body of `Tabular::sample` is not among the
sources.  Per the spec, the sampler searches the cumulative table for the
interval containing `u`; the search is modelled as the least index `i` with
`u < c[i+1]`, which on a monotone table is the interval the binary search
finds. -/
def findBinAux (c : List ℚ) (u : ℚ) : ℕ → ℕ → Option ℕ
  | _, 0 => none
  | i, fuel + 1 =>
      if u < c.getD (i + 1) 0 then some i else findBinAux c u (i + 1) fuel

/-- Search the cumulative table `c` for the interval containing `u`. -/
def findBin (c : List ℚ) (u : ℚ) : Option ℕ :=
  findBinAux c u 0 (c.length - 1)

/-- Modelled from the spec: histogram-interpolated `Tabular::sample` at
uniform variate `u` returns `x[i] + (u - c[i]) / p[i]` for the interval `i`
containing `u`, and `x[i]` alone when `p[i] = 0`. -/
def tabSampleHist (x p c : List ℚ) (u : ℚ) : Option ℚ :=
  match findBin c u with
  | some i =>
      some (if p.getD i 0 = 0 then x.getD i 0
            else x.getD i 0 + (u - c.getD i 0) / p.getD i 0)
  | none => none

/-- Helper: the search returns the least qualifying index at or after its
start, when one lies within the scanned range. -/
theorem findBinAux_least (c : List ℚ) (u : ℚ) :
    ∀ (fuel i : ℕ), (∃ j < fuel, u < c.getD (i + j + 1) 0) →
      ∃ k, findBinAux c u i fuel = some k ∧ i ≤ k ∧ k < i + fuel ∧
        u < c.getD (k + 1) 0 ∧ ∀ m, i ≤ m → m < k → c.getD (m + 1) 0 ≤ u := by
  intro fuel
  induction fuel with
  | zero => intro i h; obtain ⟨j, hj, -⟩ := h; omega
  | succ fuel ih =>
    intro i h
    by_cases hu : u < c.getD (i + 1) 0
    · exact ⟨i, by rw [findBinAux, if_pos hu], le_refl i, by omega, hu,
        fun m h1 h2 => by omega⟩
    · obtain ⟨j, hj, hcj⟩ := h
      have hj0 : j ≠ 0 := by
        intro h0
        rw [h0] at hcj
        simpa using hu hcj
      obtain ⟨k, hk, hik, hkf, hck, hleast⟩ := ih (i + 1)
        ⟨j - 1, by omega, by
          have : i + 1 + (j - 1) + 1 = i + j + 1 := by omega
          rw [this]; exact hcj⟩
      refine ⟨k, ?_, by omega, by omega, hck, ?_⟩
      · rw [findBinAux, if_neg hu]; exact hk
      · intro m h1 h2
        rcases Nat.eq_or_lt_of_le h1 with rfl | h1'
        · exact not_lt.mp hu
        · exact hleast m h1' h2

/-- Claim C2: for every constructed histogram-interpolated `Tabular` and
every `u` in `[0,1)`, `sample` locates the interval `[c[i], c[i+1])`
containing `u` (the least such interval, as the binary search over the
monotone table does) and returns `x[i] + (u - c[i]) / p[i]`, or `x[i]`
alone when `p[i] = 0` rather than failing. -/
theorem tabular_hist_sample_spec (x p : List ℚ) (t : TabularD) (u : ℚ)
    (ht : tabularInit x p Interp.histogram = some t)
    (hu0 : 0 ≤ u) (hu1 : u < 1) :
    ∃ i, t.c.getD i 0 ≤ u ∧ u < t.c.getD (i + 1) 0 ∧
      (∀ m < i, t.c.getD (m + 1) 0 ≤ u) ∧
      tabSampleHist t.x t.p t.c u
        = some (if t.p.getD i 0 = 0 then t.x.getD i 0
                else t.x.getD i 0 + (u - t.c.getD i 0) / t.p.getD i 0) := by
  obtain ⟨hv, -, -, hc, -⟩ := tabularInit_eq_some ht
  obtain ⟨hc0, hclast, -⟩ := tabularCumNorm_spec x p Interp.histogram hv
  rw [← hc] at hc0 hclast
  have hclen : 2 ≤ t.c.length := by
    rw [hc]
    have h1 : (cumIncrements Interp.histogram x p).length = min x.length p.length - 1 :=
      cumIncrements_length Interp.histogram x p
    have : (tabularCumNorm Interp.histogram x p).length
        = (cumIncrements Interp.histogram x p).length + 1 := by
      simp [tabularCumNorm, cumList, cumFrom_length]
    rw [this, h1]
    obtain ⟨hlen, hn, -, -, -⟩ := hv
    omega
  have hex : ∃ j < t.c.length - 1, u < t.c.getD (0 + j + 1) 0 := by
    refine ⟨t.c.length - 2, by omega, ?_⟩
    have : 0 + (t.c.length - 2) + 1 = t.c.length - 1 := by omega
    rw [this, hclast]
    exact hu1
  obtain ⟨k, hk, -, -, hck, hleast⟩ := findBinAux_least t.c u (t.c.length - 1) 0 hex
  refine ⟨k, ?_, hck, fun m hm => hleast m (by omega) hm, ?_⟩
  · cases k with
    | zero => rw [hc0]; exact hu0
    | succ k' => exact hleast k' (by omega) (by omega)
  · rw [tabSampleHist, findBin, hk]

/-- Witness for C2 at `x = [0,1,2]`, `p = [1/2,1/2,1/2]`, `c = [0,1/2,1]`,
`u = 3/4`: the containing interval is `i = 1` and the sample is
`1 + (3/4 - 1/2)/(1/2) = 3/2`. -/
theorem tabular_hist_sample_spec_witness :
    ∃ i, (TabularD.mk [0, 1, 2] [1/2, 1/2, 1/2] [0, 1/2, 1] Interp.histogram).c.getD i 0 ≤ 3/4 ∧
      (3/4 : ℚ) < (TabularD.mk [0, 1, 2] [1/2, 1/2, 1/2] [0, 1/2, 1] Interp.histogram).c.getD (i + 1) 0 ∧
      (∀ m < i, (TabularD.mk [0, 1, 2] [1/2, 1/2, 1/2] [0, 1/2, 1] Interp.histogram).c.getD (m + 1) 0 ≤ 3/4) ∧
      tabSampleHist (TabularD.mk [0, 1, 2] [1/2, 1/2, 1/2] [0, 1/2, 1] Interp.histogram).x
          (TabularD.mk [0, 1, 2] [1/2, 1/2, 1/2] [0, 1/2, 1] Interp.histogram).p
          (TabularD.mk [0, 1, 2] [1/2, 1/2, 1/2] [0, 1/2, 1] Interp.histogram).c (3/4)
        = some (if (TabularD.mk [0, 1, 2] [1/2, 1/2, 1/2] [0, 1/2, 1] Interp.histogram).p.getD i 0 = 0
                then (TabularD.mk [0, 1, 2] [1/2, 1/2, 1/2] [0, 1/2, 1] Interp.histogram).x.getD i 0
                else (TabularD.mk [0, 1, 2] [1/2, 1/2, 1/2] [0, 1/2, 1] Interp.histogram).x.getD i 0
                  + ((3/4 : ℚ) - (TabularD.mk [0, 1, 2] [1/2, 1/2, 1/2] [0, 1/2, 1] Interp.histogram).c.getD i 0)
                    / (TabularD.mk [0, 1, 2] [1/2, 1/2, 1/2] [0, 1/2, 1] Interp.histogram).p.getD i 0) :=
  tabular_hist_sample_spec [0, 1, 2] [1, 1, 1]
    (TabularD.mk [0, 1, 2] [1/2, 1/2, 1/2] [0, 1/2, 1] Interp.histogram) (3/4)
    (by norm_num [tabularInit, tabularValid, tabularCumNorm, cumIncrements,
      interpArea, cumList, cumFrom, List.chain'_cons])
    (by norm_num) (by norm_num)

/-- Claim C10: `Tabular` exposes a non-const accessor `x()` returning a
mutable reference to its grid, so a caller can replace `x` after
construction while no operation recomputes the derived cumulative table:
there is a constructed `Tabular` whose `c` is consistent with its `x` and
`p`, and an assignment through the accessor after which `c` no longer
matches the table derived from the new `x` and the unchanged `p`. -/
theorem tabular_mutable_x_breaks_c :
    ∃ t : TabularD,
      tabularInit [0, 1, 3] [1, 1, 1] Interp.histogram = some t ∧
      tabularConsistentC t ∧ ¬ tabularConsistentC (setX t [0, 2, 3]) := by
  refine ⟨TabularD.mk [0, 1, 3] [1/3, 1/3, 1/3] [0, 1/3, 1] Interp.histogram, ?_, ?_, ?_⟩
  · norm_num [tabularInit, tabularValid, tabularCumNorm, cumIncrements,
      interpArea, cumList, cumFrom, List.chain'_cons]
  · norm_num [tabularConsistentC, tabularCumNorm, cumIncrements, interpArea,
      cumList, cumFrom]
  · norm_num [tabularConsistentC, setX, tabularCumNorm, cumIncrements,
      interpArea, cumList, cumFrom]

/-! ### Maxwell and Watt distributions

The analytic samplers consume uniform variates from an explicit stream and
are modelled over the real numbers.  The bodies of `Maxwell::sample` and
`Watt::sample` are not among the sources; the rejection loops below are
modelled from the spec, as noted on each definition. -/

/-- Modelled from the spec: the candidate energy of one Maxwell rejection
trial combines the two transformed (exponential-like) uniform variates
`-log u1` and `-log u2` of trial `k`, scaled by the temperature `theta`. -/
noncomputable def maxwellCandidate (θ : ℝ) (us : ℕ → ℝ) (k : ℕ) : ℝ :=
  θ * (-Real.log (us (3 * k)) + -Real.log (us (3 * k + 1)))

/-- Modelled from the spec: the cosine-based acceptance test of one Maxwell
rejection trial.  Its exact formula is stated nowhere in the available
sources, so the decision is a parameter `accept`, applied to the cosine of
the third variate of the trial and to the two transformed variates. -/
noncomputable def maxwellAccepted (accept : ℝ → ℝ → ℝ → Bool)
    (us : ℕ → ℝ) (k : ℕ) : Bool :=
  accept (Real.cos (Real.pi / 2 * us (3 * k + 2)))
    (-Real.log (us (3 * k))) (-Real.log (us (3 * k + 1)))

/-- Modelled from the spec: `Maxwell::sample` loops until acceptance,
returning the candidate of the first accepted trial; `fuel` bounds the
number of trials inspected (the C++ loop is unbounded). -/
noncomputable def maxwellLoop (θ : ℝ) (accept : ℝ → ℝ → ℝ → Bool)
    (us : ℕ → ℝ) : ℕ → ℕ → Option ℝ
  | _, 0 => none
  | k, fuel + 1 =>
      if maxwellAccepted accept us k then some (maxwellCandidate θ us k)
      else maxwellLoop θ accept us (k + 1) fuel

/-- Helper: the Maxwell rejection loop started at trial `k` returns exactly
the candidate of the first accepted trial within its fuel. -/
theorem maxwellLoop_eq_some (θ : ℝ) (accept : ℝ → ℝ → ℝ → Bool) (us : ℕ → ℝ) :
    ∀ (fuel k : ℕ) (E : ℝ),
      maxwellLoop θ accept us k fuel = some E ↔
      ∃ j, k ≤ j ∧ j < k + fuel ∧ maxwellAccepted accept us j = true ∧
        (∀ m, k ≤ m → m < j → maxwellAccepted accept us m = false) ∧
        E = maxwellCandidate θ us j := by
  intro fuel
  induction fuel with
  | zero =>
    intro k E
    constructor
    · intro h; simp [maxwellLoop] at h
    · rintro ⟨j, h1, h2, -⟩; omega
  | succ fuel ih =>
    intro k E
    cases hacc : maxwellAccepted accept us k with
    | true =>
      constructor
      · intro h
        rw [maxwellLoop, if_pos hacc] at h
        exact ⟨k, le_refl k, by omega, hacc, fun m h1 h2 => by omega,
          (Option.some.inj h).symm⟩
      · rintro ⟨j, hj1, hj2, hjacc, hleast, rfl⟩
        have hjk : j = k := by
          by_contra hne
          have hkj : k < j := by omega
          have := hleast k (le_refl k) hkj
          rw [hacc] at this
          cases this
        subst hjk
        rw [maxwellLoop, if_pos hacc]
    | false =>
      have hcond : ¬ (maxwellAccepted accept us k = true) := by simp [hacc]
      constructor
      · intro h
        rw [maxwellLoop, if_neg hcond] at h
        obtain ⟨j, h1, h2, h3, h4, h5⟩ := (ih (k + 1) E).mp h
        refine ⟨j, by omega, by omega, h3, ?_, h5⟩
        intro m hm1 hm2
        rcases Nat.eq_or_lt_of_le hm1 with rfl | hm1'
        · exact hacc
        · exact h4 m hm1' hm2
      · rintro ⟨j, hj1, hj2, hjacc, hleast, rfl⟩
        have hjk : j ≠ k := by
          intro he
          rw [he, hacc] at hjacc
          cases hjacc
        rw [maxwellLoop, if_neg hcond]
        exact (ih (k + 1) _).mpr ⟨j, by omega, by omega, hjacc,
          fun m h1 h2 => hleast m (by omega) h2, rfl⟩

/-- Claim C4: the modelled `Maxwell::sample` is a rejection algorithm: each
trial combines the two log-transformed uniform variates into the candidate
energy `theta * (-log u1 - log u2)`, applies the cosine-based acceptance
test to `cos(pi/2 * u3)`, and the loop returns precisely the candidate of
the first accepted trial, for every `theta` and every variate stream. -/
theorem maxwell_sample_rejection (θ : ℝ) (accept : ℝ → ℝ → ℝ → Bool)
    (us : ℕ → ℝ) (fuel : ℕ) (E : ℝ) :
    maxwellLoop θ accept us 0 fuel = some E ↔
    ∃ k, k < fuel ∧
      accept (Real.cos (Real.pi / 2 * us (3 * k + 2)))
        (-Real.log (us (3 * k))) (-Real.log (us (3 * k + 1))) = true ∧
      (∀ j < k, accept (Real.cos (Real.pi / 2 * us (3 * j + 2)))
        (-Real.log (us (3 * j))) (-Real.log (us (3 * j + 1))) = false) ∧
      E = θ * (-Real.log (us (3 * k)) + -Real.log (us (3 * k + 1))) := by
  rw [maxwellLoop_eq_some]
  simp only [maxwellAccepted, maxwellCandidate]
  constructor
  · rintro ⟨j, -, h2, h3, h4, h5⟩
    exact ⟨j, by omega, h3, fun m hm => h4 m (by omega) hm, h5⟩
  · rintro ⟨k, h1, h2, h3, h4⟩
    exact ⟨k, by omega, by omega, h2, fun m _ hm => h3 m hm, h4⟩

/-- Modelled from the spec: round `k` of `Watt::sample` first draws an
energy `w` from a Maxwell distribution with `theta = a`, consuming the
variate stream of that round. -/
noncomputable def wattDraw (a : ℝ) (accM : ℝ → ℝ → ℝ → Bool)
    (us2 : ℕ → ℕ → ℝ) (mfuel k : ℕ) : Option ℝ :=
  maxwellLoop a accM (us2 k) 0 mfuel

/-- Modelled from the spec: the body of `Watt::sample` is not among the
sources.  Per the spec, each round draws `w` from `Maxwell(a)`, then runs a
correlated rejection test on `w` with parameter `b` and one further uniform
variate; on rejection both quantities are redrawn (a fresh round with fresh
variates), and the accepted energy is returned.  The test's exact formula is
stated nowhere in the available sources, so it is a parameter `accW`. -/
noncomputable def wattLoop (a b : ℝ) (accM accW : ℝ → ℝ → ℝ → Bool)
    (us2 : ℕ → ℕ → ℝ) (uw : ℕ → ℝ) (mfuel : ℕ) : ℕ → ℕ → Option ℝ
  | _, 0 => none
  | k, fuel + 1 =>
      match wattDraw a accM us2 mfuel k with
      | none => none
      | some w =>
          if accW b w (uw k) then some w
          else wattLoop a b accM accW us2 uw mfuel (k + 1) fuel

/-- Helper: the Watt rejection loop started at round `k` returns exactly the
Maxwell draw of the first round whose test accepts, every earlier round
having drawn and rejected. -/
theorem wattLoop_eq_some (a b : ℝ) (accM accW : ℝ → ℝ → ℝ → Bool)
    (us2 : ℕ → ℕ → ℝ) (uw : ℕ → ℝ) (mfuel : ℕ) :
    ∀ (fuel k : ℕ) (E : ℝ),
      wattLoop a b accM accW us2 uw mfuel k fuel = some E ↔
      ∃ j, k ≤ j ∧ j < k + fuel ∧
        (∀ m, k ≤ m → m < j → ∃ w, wattDraw a accM us2 mfuel m = some w ∧
          accW b w (uw m) = false) ∧
        wattDraw a accM us2 mfuel j = some E ∧ accW b E (uw j) = true := by
  intro fuel
  induction fuel with
  | zero =>
    intro k E
    constructor
    · intro h; simp [wattLoop] at h
    · rintro ⟨j, h1, h2, -⟩; omega
  | succ fuel ih =>
    intro k E
    cases hdraw : wattDraw a accM us2 mfuel k with
    | none =>
      constructor
      · intro h
        rw [wattLoop] at h
        rw [hdraw] at h
        cases h
      · rintro ⟨j, hj1, hj2, hleast, hdrawj, -⟩
        rcases Nat.eq_or_lt_of_le hj1 with rfl | hkj
        · rw [hdraw] at hdrawj; cases hdrawj
        · obtain ⟨w, hw, -⟩ := hleast k (le_refl k) hkj
          rw [hdraw] at hw; cases hw
    | some w =>
      cases hacc : accW b w (uw k) with
      | true =>
        constructor
        · intro h
          rw [wattLoop] at h
          rw [hdraw] at h
          simp only [if_pos hacc] at h
          refine ⟨k, le_refl k, by omega, fun m h1 h2 => by omega, ?_, ?_⟩
          · rw [hdraw, h]
          · rw [← Option.some.inj h]; exact hacc
        · rintro ⟨j, hj1, hj2, hleast, hdrawj, haccj⟩
          have hjk : j = k := by
            by_contra hne
            have hkj : k < j := by omega
            obtain ⟨w', hw', hfalse⟩ := hleast k (le_refl k) hkj
            rw [hdraw] at hw'
            rw [Option.some.inj hw'] at hacc
            rw [hacc] at hfalse
            cases hfalse
          subst hjk
          rw [hdraw] at hdrawj
          have hwE : w = E := Option.some.inj hdrawj
          subst hwE
          rw [wattLoop]
          rw [hdraw]
          simp only [if_pos hacc]
      | false =>
        have hcond : ¬ (accW b w (uw k) = true) := by simp [hacc]
        constructor
        · intro h
          rw [wattLoop] at h
          rw [hdraw] at h
          simp only [if_neg hcond] at h
          obtain ⟨j, h1, h2, h3, h4, h5⟩ := (ih (k + 1) E).mp h
          refine ⟨j, by omega, by omega, ?_, h4, h5⟩
          intro m hm1 hm2
          rcases Nat.eq_or_lt_of_le hm1 with rfl | hm1'
          · exact ⟨w, hdraw, hacc⟩
          · exact h3 m hm1' hm2
        · rintro ⟨j, hj1, hj2, hleast, hdrawj, haccj⟩
          have hjk : j ≠ k := by
            intro he
            rw [he, hdraw] at hdrawj
            have hwE : w = E := Option.some.inj hdrawj
            rw [← hwE, he] at haccj
            rw [hacc] at haccj
            cases haccj
          rw [wattLoop]
          rw [hdraw]
          simp only [if_neg hcond]
          exact (ih (k + 1) E).mpr ⟨j, by omega, by omega,
            fun m h1 h2 => hleast m (by omega) h2, hdrawj, haccj⟩

/-- Claim C5: the modelled `Watt::sample` first draws `w` from a Maxwell
distribution with `theta = a` (`wattDraw`), then runs the correlated
rejection test with parameter `b` and one further uniform variate; on
rejection both quantities are redrawn with fresh variates, and the loop
returns the accepted energy of the first accepting round. -/
theorem watt_sample_rejection (a b : ℝ) (accM accW : ℝ → ℝ → ℝ → Bool)
    (us2 : ℕ → ℕ → ℝ) (uw : ℕ → ℝ) (mfuel fuel : ℕ) (E : ℝ) :
    wattLoop a b accM accW us2 uw mfuel 0 fuel = some E ↔
    ∃ k, k < fuel ∧
      (∀ j < k, ∃ w, maxwellLoop a accM (us2 j) 0 mfuel = some w ∧
        accW b w (uw j) = false) ∧
      maxwellLoop a accM (us2 k) 0 mfuel = some E ∧ accW b E (uw k) = true := by
  rw [wattLoop_eq_some]
  simp only [wattDraw]
  constructor
  · rintro ⟨j, -, h2, h3, h4, h5⟩
    exact ⟨j, by omega, fun m hm => h3 m (by omega) hm, h4, h5⟩
  · rintro ⟨k, h1, h2, h3, h4⟩
    exact ⟨k, by omega, by omega, fun m _ hm => h2 m hm, h3, h4⟩

/-- Helper: each Maxwell candidate is non-negative when the temperature is
non-negative and the variates lie in `[0,1]`. -/
theorem maxwellCandidate_nonneg (θ : ℝ) (us : ℕ → ℝ) (k : ℕ)
    (hθ : 0 ≤ θ) (hus : ∀ n, 0 ≤ us n ∧ us n ≤ 1) :
    0 ≤ maxwellCandidate θ us k := by
  have h1 := Real.log_nonpos (hus (3 * k)).1 (hus (3 * k)).2
  have h2 := Real.log_nonpos (hus (3 * k + 1)).1 (hus (3 * k + 1)).2
  rw [maxwellCandidate]
  apply mul_nonneg hθ
  linarith

/-- Helper: every value the Maxwell loop returns is non-negative. -/
theorem maxwellLoop_nonneg (θ : ℝ) (accM : ℝ → ℝ → ℝ → Bool) (us : ℕ → ℝ)
    (hθ : 0 ≤ θ) (hus : ∀ n, 0 ≤ us n ∧ us n ≤ 1) :
    ∀ (fuel k : ℕ) (E : ℝ), maxwellLoop θ accM us k fuel = some E → 0 ≤ E := by
  intro fuel k E h
  obtain ⟨j, -, -, -, -, rfl⟩ := (maxwellLoop_eq_some θ accM us fuel k E).mp h
  exact maxwellCandidate_nonneg θ us j hθ hus

/-- Claim C9: for every `theta > 0` and `a > 0` and every stream of uniform
variates in `[0,1)`, whatever the acceptance tests decide, any energy the
modelled `Maxwell::sample` or `Watt::sample` returns is non-negative (and,
being a real number of the model, finite). -/
theorem maxwell_watt_sample_nonneg (θ a b : ℝ) (accM accW : ℝ → ℝ → ℝ → Bool)
    (us : ℕ → ℝ) (us2 : ℕ → ℕ → ℝ) (uw : ℕ → ℝ)
    (hθ : 0 < θ) (ha : 0 < a)
    (hus : ∀ n, 0 ≤ us n ∧ us n < 1)
    (hus2 : ∀ k n, 0 ≤ us2 k n ∧ us2 k n < 1) :
    (∀ fuel E, maxwellLoop θ accM us 0 fuel = some E → 0 ≤ E) ∧
    (∀ mfuel fuel E, wattLoop a b accM accW us2 uw mfuel 0 fuel = some E → 0 ≤ E) := by
  have hus' : ∀ n, 0 ≤ us n ∧ us n ≤ 1 :=
    fun n => ⟨(hus n).1, le_of_lt (hus n).2⟩
  constructor
  · intro fuel E h
    exact maxwellLoop_nonneg θ accM us (le_of_lt hθ) hus' fuel 0 E h
  · intro mfuel fuel E h
    obtain ⟨k, -, -, -, hdraw, -⟩ :=
      (wattLoop_eq_some a b accM accW us2 uw mfuel fuel 0 E).mp h
    simp only [wattDraw] at hdraw
    exact maxwellLoop_nonneg a accM (us2 k) (le_of_lt ha)
      (fun n => ⟨(hus2 k n).1, le_of_lt (hus2 k n).2⟩) mfuel 0 E hdraw

/-- Witness for C9: with constantly accepting tests and the constant stream
`1/2`, one trial of the Maxwell loop at `theta = 1` returns its first
candidate, which is non-negative. -/
theorem maxwell_watt_sample_nonneg_witness :
    maxwellLoop 1 (fun _ _ _ => true) (fun _ => (1 : ℝ)/2) 0 1
        = some (maxwellCandidate 1 (fun _ => (1 : ℝ)/2) 0) ∧
      0 ≤ maxwellCandidate 1 (fun _ => (1 : ℝ)/2) 0 := by
  have h1 : maxwellLoop 1 (fun _ _ _ => true) (fun _ => (1 : ℝ)/2) 0 1
      = some (maxwellCandidate 1 (fun _ => (1 : ℝ)/2) 0) := by
    rw [maxwellLoop, if_pos]
    rfl
  refine ⟨h1, ?_⟩
  exact (maxwell_watt_sample_nonneg 1 1 0 (fun _ _ _ => true) (fun _ _ _ => true)
    (fun _ => (1 : ℝ)/2) (fun _ _ => (1 : ℝ)/2) (fun _ => (1 : ℝ)/2)
    one_pos one_pos (fun n => ⟨by norm_num, by norm_num⟩)
    (fun k n => ⟨by norm_num, by norm_num⟩)).1 1 _ h1

end OpenMC
